import Mathlib

/-!
Verification development for the stargz-snapshotter core: a shallow
embedding, in Lean, of the reader path (`file.ReadAt`,
`Reader.CacheTarGzWithReader`, `Reader.PrefetchWithReader` from the
`reader` package) and of the remote path (`Resolver.resolve`,
`Resolver.Refresh`, `fetcher.fetch` from `stargz/remote/resolver.go`),
together with theorems settling the specification claims about them.

Bytes are modelled as `Nat`, buffers as `List Nat`, Go strings as
`String`/`List Char`.  Machine `int64` offsets and sizes are modelled as
`Nat` where the code only ever handles non-negative values, and as `Int`
where a subtraction can go below zero (HTTP regions).  Loops are embedded
as fuel-indexed recursions over an explicit step function; every theorem
below is independent of the amount of fuel or is stated at a fuel that the
code's own loop bound makes sufficient.
-/

namespace StargzSnapshotter

/-- A TOC chunk entry of a file: the `ChunkOffset`/`ChunkSize` fields of
`stargz.TOCEntry` used by the reader.  Offsets are positions inside the
decompressed file. -/
structure ChunkEntry where
  chunkOffset : Nat
  chunkSize : Nat
  deriving DecidableEq, Repr

/-- `stargz.Reader.ChunkEntryForOffset(name, offset)` for a fixed file,
modelled from the crfs/stargz contract: the TOC entry of the chunk whose
byte range contains `off`, if any (`ok == false` otherwise). -/
def chunkEntryForOffset (layout : List ChunkEntry) (off : Nat) : Option ChunkEntry :=
  layout.find? (fun ce => decide (ce.chunkOffset ≤ off ∧ off < ce.chunkOffset + ce.chunkSize))

/-- The chunk cache (`cache.BlobCache`) restricted to one file: `genID`
hashes `(digest, ChunkOffset, ChunkSize)`, so with the file digest fixed a
key is a `ChunkEntry` (sha256 is treated as collision-free).  `Add`
prepends and `Fetch` returns the first match, which models
overwrite-on-add. -/
abbrev Cache := List (ChunkEntry × List Nat)

/-- `cache.Fetch(genID ce)`: `none` models both an error and a missing
entry. -/
def cacheFetch : Cache → ChunkEntry → Option (List Nat)
  | [], _ => none
  | (k, v) :: rest, ce => if k = ce then some v else cacheFetch rest ce

/-- `cache.Add(genID ce, data)`. -/
def cacheAdd (c : Cache) (ce : ChunkEntry) (data : List Nat) : Cache :=
  (ce, data) :: c

/-- The usable-cache-hit test shared by `file.ReadAt` and
`Reader.CacheTarGzWithReader`: the fetch must succeed *and* the entry must
have exactly `ce.ChunkSize` bytes (`err != nil || len(data) != int(ce.ChunkSize)`
is the miss condition). -/
def hitData (c : Cache) (ce : ChunkEntry) : Option (List Nat) :=
  match cacheFetch c ce with
  | some d => if d.length = ce.chunkSize then some d else none
  | none => none

/-- The contents of a zero-initialized buffer of `len` bytes
(`make([]byte, len)`) after the bytes `bs` have been written at its
start: `bs` truncated to `len` and padded with zero bytes. -/
def padTo (len : Nat) (bs : List Nat) : List Nat :=
  bs.take len ++ List.replicate (len - bs.length) 0

/-- `io.SectionReader.ReadAt` over the section contents `content`: the
buffer contents after a read of `len` bytes at `off`.  Reads past the end
return the available bytes and `io.EOF`, which the reader path tolerates,
leaving the zero padding in place. -/
def sectionReadAt (content : List Nat) (off len : Nat) : List Nat :=
  padTo len ((content.drop off).take len)

/-- A section reader that never fails with a non-EOF error, serving
`content`. -/
def sectionReaderOf (content : List Nat) : Nat → Nat → Option (List Nat) :=
  fun off len => some (sectionReadAt content off len)

/-- Go `copy(p[nr:], src)` copies this many bytes. -/
def copyLen (p : List Nat) (nr : Nat) (src : List Nat) : Nat :=
  min (p.length - nr) src.length

/-- Go `copy(p[nr:], src)`: the buffer `p` after the copy. -/
def writeBuf (p : List Nat) (nr : Nat) (src : List Nat) : List Nat :=
  p.take nr ++ src.take (copyLen p nr src) ++ p.drop (nr + copyLen p nr src)

/-- Outcome of one iteration of the `file.ReadAt` loop. -/
inductive StepResult where
  | done
  | fail
  | next (p : List Nat) (nr : Nat) (c : Cache)
  deriving DecidableEq, Repr

/-- One iteration of the loop body of `file.ReadAt` (the loop guard
`nr < len(p)` lives in `readAtLoop`): look up the chunk entry containing
`offset+nr` (`.done` models the `break` when there is none); on a usable
cache hit use the cached bytes; on a miss read the whole chunk from the
underlying section reader `ra` into a fresh `ce.chunkSize` buffer (`.fail`
models a non-EOF read error) and `Add` that buffer to the cache; finally
copy from the chunk buffer starting at `offset+nr-ce.ChunkOffset` into
`p[nr:]` and advance `nr` by the number of bytes copied. -/
def readAtStep (layout : List ChunkEntry) (ra : Nat → Nat → Option (List Nat))
    (p : List Nat) (offset nr : Nat) (c : Cache) : StepResult :=
  match chunkEntryForOffset layout (offset + nr) with
  | none => .done
  | some ce =>
    match hitData c ce with
    | some data =>
      .next (writeBuf p nr (data.drop (offset + nr - ce.chunkOffset)))
        (nr + copyLen p nr (data.drop (offset + nr - ce.chunkOffset))) c
    | none =>
      match ra ce.chunkOffset ce.chunkSize with
      | none => .fail
      | some bs =>
        .next (writeBuf p nr ((padTo ce.chunkSize bs).drop (offset + nr - ce.chunkOffset)))
          (nr + copyLen p nr ((padTo ce.chunkSize bs).drop (offset + nr - ce.chunkOffset)))
          (cacheAdd c ce (padTo ce.chunkSize bs))

/-- Result of `file.ReadAt`: the returned byte count, the caller's buffer
after the call, and the final cache.  `.err n p c` is the error return
`return 0, errors.Wrap(err, ...)` (the code always passes `n = 0`). -/
inductive ReadAtResult where
  | ok (n : Nat) (p : List Nat) (c : Cache)
  | err (n : Nat) (p : List Nat) (c : Cache)
  deriving DecidableEq, Repr

/-- The loop of `file.ReadAt`, with fuel.  On normal termination the code
runs `p = p[:nr]; return len(p), nil`, embedded as the count
`(p.take nr).length`. -/
def readAtLoop (layout : List ChunkEntry) (ra : Nat → Nat → Option (List Nat)) :
    Nat → List Nat → Nat → Nat → Cache → ReadAtResult
  | 0, p, _, nr, c => .ok (p.take nr).length p c
  | fuel + 1, p, offset, nr, c =>
    if nr < p.length then
      match readAtStep layout ra p offset nr c with
      | .done => .ok (p.take nr).length p c
      | .fail => .err 0 p c
      | .next p' nr' c' => readAtLoop layout ra fuel p' offset nr' c'
    else .ok (p.take nr).length p c

/-- `file.ReadAt(p, offset)` for a file with chunk layout `layout`, whose
underlying section reader is `ra`, starting from cache `c`.  Each loop
iteration copies at least one byte, so `p.length + 1` fuel always reaches
the code's own exit conditions. -/
def fileReadAt (layout : List ChunkEntry) (ra : Nat → Nat → Option (List Nat))
    (p : List Nat) (offset : Nat) (c : Cache) : ReadAtResult :=
  readAtLoop layout ra (p.length + 1) p offset 0 c

/-- Ghost recursion mirroring `readAtLoop`: the total number of bytes the
remaining iterations copy into the caller's buffer. -/
def copiedLoop (layout : List ChunkEntry) (ra : Nat → Nat → Option (List Nat)) :
    Nat → List Nat → Nat → Nat → Cache → Nat
  | 0, _, _, _, _ => 0
  | fuel + 1, p, offset, nr, c =>
    if nr < p.length then
      match readAtStep layout ra p offset nr c with
      | .done => 0
      | .fail => 0
      | .next p' nr' c' => (nr' - nr) + copiedLoop layout ra fuel p' offset nr' c'
    else 0

/-- Hypothesis of the cache-transparency claim: every cache entry stored
under a chunk ID of this file holds exactly that chunk's true bytes — what
the underlying section reader serves for that chunk, which is also an
entry of length `chunkSize` because `sectionReadAt` pads to the chunk
size. -/
abbrev goodCache (layout : List ChunkEntry) (content : List Nat) (c : Cache) : Prop :=
  ∀ kv ∈ c, kv.1 ∈ layout → kv.2 = sectionReadAt content kv.1.chunkOffset kv.1.chunkSize

/-- Outcome of one iteration of the per-file chunk loop inside
`Reader.CacheTarGzWithReader`. -/
inductive CacheStepResult where
  | brk
  | fail
  | next (nr pos : Nat) (c : Cache)
  deriving DecidableEq, Repr

/-- `io.ReadFull(tr, data)` where `tr` is the tar reader positioned inside
the current file entry: `stream` is the entry's remaining payload, `pos`
the cursor.  A full read returns `size` bytes and advances the cursor;
reading at the very end returns `io.EOF` with the zeroed buffer untouched
(tolerated by the caller, which caches the zeros); a partial read returns
`io.ErrUnexpectedEOF` (`none`), which the caller propagates. -/
def readFull (stream : List Nat) (pos size : Nat) : Option (List Nat × Nat) :=
  if size ≤ stream.length - pos then some ((stream.drop pos).take size, pos + size)
  else if stream.length ≤ pos then some (List.replicate size 0, pos)
  else none

/-- One iteration of the `for nr < h.Size` loop of
`Reader.CacheTarGzWithReader`: look up the chunk entry at file offset `nr`
(`.brk` models the `break`); if the cache probe hits (fetch succeeded and
the entry has exactly `ce.ChunkSize` bytes) nothing is read from the tar
stream; otherwise the offsets must agree (`nr == ce.ChunkOffset`, else
error), `ce.ChunkSize` bytes are consumed from the stream at the current
cursor and added to the cache.  Either way `nr` advances by
`ce.ChunkSize`. -/
def cacheTarStep (layout : List ChunkEntry) (c : Cache) (stream : List Nat)
    (nr pos : Nat) : CacheStepResult :=
  match chunkEntryForOffset layout nr with
  | none => .brk
  | some ce =>
    match hitData c ce with
    | some _ => .next (nr + ce.chunkSize) pos c
    | none =>
      if nr ≠ ce.chunkOffset then .fail
      else
        match readFull stream pos ce.chunkSize with
        | none => .fail
        | some (data, pos') => .next (nr + ce.chunkSize) pos' (cacheAdd c ce data)

/-- What `Reader.PrefetchWithReader` decides to do after its landmark
dispatch. -/
inductive PrefetchAction where
  | skip
  | invalidLandmark
  | fetch (size : Nat)
  deriving DecidableEq, Repr

/-- The landmark dispatch at the head of
`Reader.PrefetchWithReader(sr, prefetchSize)`: `noLm` is whether
`.no.prefetch.landmark` is present in the TOC, `lm` the TOC `Offset` of
`.prefetch.landmark` when present, `layerSize = sr.Size()`.  `.skip` is
the immediate `return nil` taken before anything is read or cached;
`.invalidLandmark` is the `"invalid landmark offset ..."` error;
`.fetch n` means the function goes on to read the first `n` bytes of the
layer and cache them. -/
def prefetchDecision (noLm : Bool) (lm : Option Nat) (layerSize prefetchSize : Nat) :
    PrefetchAction :=
  if noLm then .skip
  else
    match lm with
    | some off => if layerSize < off then .invalidLandmark else .fetch off
    | none => if layerSize < prefetchSize then .fetch layerSize else .fetch prefetchSize

/-- One mirror entry (`MirrorConfig` in resolver.go). -/
structure MirrorConfig where
  host : String
  insecure : Bool
  deriving DecidableEq, Repr

/-- The per-host stage whose failure `Resolver.resolve` records in the
accumulated error (`rErr = errors.Wrapf(rErr, "host %q: ...")`). -/
inductive Stage where
  | invalidHost
  | parseRef
  | resolveRef
  | transportNotFound
  | sizeProbe
  deriving DecidableEq, Repr

/-- One accumulated error-context entry, naming the host it came from. -/
structure ErrCtx where
  host : String
  stage : Stage
  deriving DecidableEq, Repr

/-- The effectful per-host calls made by `Resolver.resolve`, abstracted as
oracles so the host-walk control flow can be verified independently of
HTTP: `parse` is `name.ParseReference` on `"{host}/{path}"` with the
host's options (the path is fixed for one resolve call), `resolveRef` is
`r.resolveReference(nref, digest)` yielding the blob URL, `pool` is the
`r.trPool[nref.Name()]` lookup (after a successful `resolveReference` the
pool always holds the transport it stored), and `getSize` probes the blob
size over the pooled transport. -/
structure HostOracles where
  parse : MirrorConfig → Option String
  resolveRef : String → Option String
  pool : String → Option Nat
  getSize : String → Nat → Option Nat

/-- The `for _, h := range hosts` loop of `Resolver.resolve`: hosts whose
name is empty or contains `/` are skipped with an accumulated error; each
remaining stage failure appends its context and tries the next host; the
first host whose stages all succeed returns that host's
`(url, size, transport)`, discarding the accumulated context; when the
hosts run out the accumulated context is the error. -/
def resolveLoop (o : HostOracles) : List MirrorConfig → List ErrCtx →
    Except (List ErrCtx) (String × Nat × Nat)
  | [], errs => .error errs
  | h :: rest, errs =>
    if h.host = "" ∨ h.host.toList.contains '/' = true then
      resolveLoop o rest (errs ++ [⟨h.host, .invalidHost⟩])
    else
      match o.parse h with
      | none => resolveLoop o rest (errs ++ [⟨h.host, .parseRef⟩])
      | some nref =>
        match o.resolveRef nref with
        | none => resolveLoop o rest (errs ++ [⟨h.host, .resolveRef⟩])
        | some url =>
          match o.pool nref with
          | none => resolveLoop o rest (errs ++ [⟨h.host, .transportNotFound⟩])
          | some tr =>
            match o.getSize url tr with
            | none => resolveLoop o rest (errs ++ [⟨h.host, .sizeProbe⟩])
            | some size => .ok (url, size, tr)

/-- `Resolver.resolve(ref, digest)`: the candidate host list is the
configured mirrors of the reference's domain followed by the domain
itself (`append(r.config[domain].Mirrors, MirrorConfig{Host: domain})`),
and the accumulated context starts empty (the base
`fmt.Errorf("failed to resolve")` carries no host context). -/
def resolverResolve (o : HostOracles) (mirrors : List MirrorConfig) (domain : String) :
    Except (List ErrCtx) (String × Nat × Nat) :=
  resolveLoop o (mirrors ++ [⟨domain, false⟩]) []

/-- Whether `Resolver.resolve` skips or fails on host `h`. -/
def hostFails (o : HostOracles) (h : MirrorConfig) : Bool :=
  decide (h.host = "") || h.host.toList.contains '/' ||
    match o.parse h with
    | none => true
    | some nref =>
      match o.resolveRef nref with
      | none => true
      | some url =>
        match o.pool nref with
        | none => true
        | some tr => (o.getSize url tr).isNone

/-- The stage at which host `h` fails (meaningful when `hostFails`). -/
def failStage (o : HostOracles) (h : MirrorConfig) : Stage :=
  if h.host = "" ∨ h.host.toList.contains '/' = true then .invalidHost
  else
    match o.parse h with
    | none => .parseRef
    | some nref =>
      match o.resolveRef nref with
      | none => .resolveRef
      | some url =>
        match o.pool nref with
        | none => .transportNotFound
        | some tr =>
          match o.getSize url tr with
          | none => .sizeProbe
          | some _ => .sizeProbe

/-- The error-context entry a failing host contributes. -/
def failEntry (o : HostOracles) (h : MirrorConfig) : ErrCtx :=
  ⟨h.host, failStage o h⟩

/-- The `(URL, transport)` pair a successful resolve binds a `fetcher`
to. -/
structure Fetcher where
  url : String
  tr : Nat
  deriving DecidableEq, Repr

/-- The fields of `blob` that `Resolver.Refresh` reads or writes. -/
structure Blob where
  fetcher : Fetcher
  size : Nat
  lastCheck : Nat
  deriving DecidableEq, Repr

/-- Error kinds `Resolver.Refresh` can return. -/
inductive RefreshErr where
  | resolveFailed
  | sizeChanged
  deriving DecidableEq, Repr

/-- `Resolver.Refresh(target)`: `res` is the outcome of
`b.fetcher.refresh()` — that is, of re-running
`resolver.resolve(ref, digest)` — and `now` is the current time.  Returns
the error (if any) paired with the blob state after the call; on every
error return the blob is left as it was. -/
def Refresh (b : Blob) (res : Except (List ErrCtx) (String × Nat × Nat))
    (now : Nat) : Option RefreshErr × Blob :=
  match res with
  | .error _ => (some .resolveFailed, b)
  | .ok (url, size, tr) =>
    if size ≠ b.size then (some .sizeChanged, b)
    else (none, { b with fetcher := ⟨url, tr⟩, lastCheck := now })

/-- An inclusive byte range (`region` in resolver.go, `int64` fields). -/
structure region where
  b : Int
  e : Int
  deriving DecidableEq, Repr

/-- `region.size()`. -/
def region.size (r : region) : Int := r.e - r.b + 1

/-- Go `fmt.Sprintf("%d", n)` for an `int64`, as a character list. -/
def intStr (n : Int) : List Char :=
  if n < 0 then '-' :: Nat.toDigits 10 n.natAbs else Nat.toDigits 10 n.toNat

/-- The piece `fmt.Sprintf("%d-%d,", reg.b, reg.e)` appended to the
`ranges` string for one requested region. -/
def fmtRegion (r : region) : List Char :=
  intStr r.b ++ '-' :: (intStr r.e ++ [','])

/-- The `ranges` accumulator in `fetcher.fetch`: starts at
`"bytes=0-0,"` (the dummy range) and appends each requested region in
order. -/
def rangesStr (reqs : List region) : List Char :=
  reqs.foldl (fun acc r => acc ++ fmtRegion r) "bytes=0-0,".toList

/-- The value of the single request's `Range` header:
`ranges[:len(ranges)-1]`, the accumulator with its trailing comma
stripped. -/
def rangeHeader (reqs : List region) : List Char :=
  (rangesStr reqs).dropLast

/-- The header as the specification words it: `bytes=0-0` followed by each
requested region rendered `b-e` in request order, joined by commas, with
no trailing comma. -/
def rangeHeaderSpec (reqs : List region) : List Char :=
  "bytes=0-0".toList ++ reqs.flatMap (fun r => ',' :: (intStr r.b ++ '-' :: intStr r.e))

/-- Error kinds of the 200-OK branch of `fetcher.fetch`. -/
inductive FetchErr where
  | badContentLength
  | brokenBody
  deriving DecidableEq, Repr

/-- The `res.StatusCode == http.StatusOK` branch of `fetcher.fetch`: the
server returned the whole blob.  `body` is the fully read response body,
`contentLength` the result of `strconv.ParseInt` on the `Content-Length`
header (`none` on parse failure).  The body length must equal the parsed
size; the returned mapping holds the single entry keyed by
`region{0, size - 1}`. -/
def fetchOn200 (body : List Nat) (contentLength : Option Int) :
    Except FetchErr (List (region × List Nat)) :=
  match contentLength with
  | none => .error .badContentLength
  | some size =>
    if (body.length : Int) ≠ size then .error .brokenBody
    else .ok [(⟨0, size - 1⟩, body)]

/-- Oracle instance used to exercise the host walk on concrete inputs:
host `good` resolves all the way to size 100; every other host fails at
reference parsing. -/
def oracleW : HostOracles where
  parse := fun h => if h.host = "good" then some "n" else none
  resolveRef := fun n => if n = "n" then some "u" else none
  pool := fun n => if n = "n" then some 1 else none
  getSize := fun u _ => if u = "u" then some 100 else none

theorem padTo_length (len : Nat) (bs : List Nat) : (padTo len bs).length = len := by
  simp [padTo]
  omega

theorem padTo_of_length {len : Nat} {bs : List Nat} (h : bs.length = len) :
    padTo len bs = bs := by
  subst h
  simp [padTo]

theorem sectionReadAt_length (content : List Nat) (off len : Nat) :
    (sectionReadAt content off len).length = len :=
  padTo_length len _

theorem chunkEntryForOffset_mem {layout : List ChunkEntry} {off : Nat} {ce : ChunkEntry}
    (h : chunkEntryForOffset layout off = some ce) :
    ce ∈ layout ∧ ce.chunkOffset ≤ off ∧ off < ce.chunkOffset + ce.chunkSize := by
  unfold chunkEntryForOffset at h
  have h1 := List.mem_of_find?_eq_some h
  have h2 := List.find?_some h
  simp only [decide_eq_true_eq] at h2
  exact ⟨h1, h2⟩

theorem hitData_eq_some {c : Cache} {ce : ChunkEntry} {d : List Nat}
    (h : hitData c ce = some d) :
    cacheFetch c ce = some d ∧ d.length = ce.chunkSize := by
  unfold hitData at h
  split at h
  next d' hf =>
    split at h
    next hl =>
      cases h
      exact ⟨hf, hl⟩
    next hl => exact absurd h (by simp)
  next hf => exact absurd h (by simp)

theorem cacheFetch_mem {c : Cache} {ce : ChunkEntry} {bs : List Nat}
    (h : cacheFetch c ce = some bs) : (ce, bs) ∈ c := by
  induction c with
  | nil => simp [cacheFetch] at h
  | cons kv rest ih =>
    obtain ⟨k, v⟩ := kv
    by_cases hk : k = ce
    · subst hk
      simp [cacheFetch] at h
      subst h
      exact List.mem_cons_self _ _
    · simp [cacheFetch, hk] at h
      exact List.mem_cons_of_mem _ (ih h)

theorem goodCache_fetch {layout : List ChunkEntry} {content : List Nat} {c : Cache}
    {ce : ChunkEntry} {bs : List Nat} (hg : goodCache layout content c)
    (hce : ce ∈ layout) (h : cacheFetch c ce = some bs) :
    bs = sectionReadAt content ce.chunkOffset ce.chunkSize :=
  hg (ce, bs) (cacheFetch_mem h) hce

theorem goodCache_add {layout : List ChunkEntry} {content : List Nat} {c : Cache}
    (hg : goodCache layout content c) (ce : ChunkEntry) :
    goodCache layout content
      (cacheAdd c ce (sectionReadAt content ce.chunkOffset ce.chunkSize)) := by
  intro kv hkv hmem
  simp only [cacheAdd, List.mem_cons] at hkv
  rcases hkv with h | h
  · subst h; rfl
  · exact hg kv h hmem

theorem writeBuf_length {p : List Nat} {nr : Nat} (src : List Nat) (h : nr ≤ p.length) :
    (writeBuf p nr src).length = p.length := by
  simp [writeBuf, copyLen]
  omega

theorem readAtStep_next {layout : List ChunkEntry} {ra : Nat → Nat → Option (List Nat)}
    {p : List Nat} {offset nr : Nat} {c : Cache} {p' : List Nat} {nr' : Nat} {c' : Cache}
    (h : readAtStep layout ra p offset nr c = .next p' nr' c') :
    ∃ ce src, chunkEntryForOffset layout (offset + nr) = some ce ∧
      src.length = ce.chunkSize - (offset + nr - ce.chunkOffset) ∧
      p' = writeBuf p nr src ∧ nr' = nr + copyLen p nr src := by
  unfold readAtStep at h
  split at h
  next hce => exact absurd h (by simp)
  next ce hce =>
    split at h
    next d hh =>
      cases h
      refine ⟨ce, d.drop (offset + nr - ce.chunkOffset), hce, ?_, rfl, rfl⟩
      rw [List.length_drop, (hitData_eq_some hh).2]
    next hh =>
      split at h
      next hra => exact absurd h (by simp)
      next bs hra =>
        cases h
        refine ⟨ce, (padTo ce.chunkSize bs).drop (offset + nr - ce.chunkOffset),
          hce, ?_, rfl, rfl⟩
        rw [List.length_drop, padTo_length]

theorem readAtStep_fail {layout : List ChunkEntry} {ra : Nat → Nat → Option (List Nat)}
    {p : List Nat} {offset nr : Nat} {c : Cache}
    (h : readAtStep layout ra p offset nr c = .fail) :
    ∃ ce, chunkEntryForOffset layout (offset + nr) = some ce ∧
      hitData c ce = none ∧ ra ce.chunkOffset ce.chunkSize = none := by
  unfold readAtStep at h
  split at h
  next hce => exact absurd h (by simp)
  next ce hce =>
    split at h
    next d hh => exact absurd h (by simp)
    next hh =>
      split at h
      next hra => exact ⟨ce, hce, hh, hra⟩
      next bs hra => exact absurd h (by simp)

theorem readAtStep_good {layout : List ChunkEntry} {content : List Nat} {c : Cache}
    {offset nr : Nat} {ce : ChunkEntry} (p : List Nat)
    (hg : goodCache layout content c)
    (hce : chunkEntryForOffset layout (offset + nr) = some ce) :
    ∃ c', readAtStep layout (sectionReaderOf content) p offset nr c =
        .next
          (writeBuf p nr
            ((sectionReadAt content ce.chunkOffset ce.chunkSize).drop
              (offset + nr - ce.chunkOffset)))
          (nr + copyLen p nr
            ((sectionReadAt content ce.chunkOffset ce.chunkSize).drop
              (offset + nr - ce.chunkOffset)))
          c' ∧
      goodCache layout content c' := by
  have hmem := (chunkEntryForOffset_mem hce).1
  cases hh : hitData c ce with
  | some d =>
    have hd : d = sectionReadAt content ce.chunkOffset ce.chunkSize :=
      goodCache_fetch hg hmem (hitData_eq_some hh).1
    subst hd
    refine ⟨c, ?_, hg⟩
    simp only [readAtStep, hce, hh]
  | none =>
    refine ⟨cacheAdd c ce (sectionReadAt content ce.chunkOffset ce.chunkSize), ?_,
      goodCache_add hg ce⟩
    simp only [readAtStep, hce, hh, sectionReaderOf]
    rw [padTo_of_length (sectionReadAt_length content ce.chunkOffset ce.chunkSize)]

theorem readAtLoop_good {layout : List ChunkEntry} {content : List Nat} {offset : Nat} :
    ∀ fuel (p : List Nat) (nr : Nat) (c1 c2 : Cache),
    goodCache layout content c1 → goodCache layout content c2 →
    ∃ k q c1' c2',
      readAtLoop layout (sectionReaderOf content) fuel p offset nr c1 = .ok k q c1' ∧
      readAtLoop layout (sectionReaderOf content) fuel p offset nr c2 = .ok k q c2' := by
  intro fuel
  induction fuel with
  | zero => exact fun p nr c1 c2 _ _ => ⟨_, _, _, _, rfl, rfl⟩
  | succ fuel ih =>
    intro p nr c1 c2 hg1 hg2
    by_cases hlt : nr < p.length
    · cases hce : chunkEntryForOffset layout (offset + nr) with
      | none =>
        have hstep : ∀ c0, readAtStep layout (sectionReaderOf content) p offset nr c0
            = .done := fun c0 => by simp only [readAtStep, hce]
        refine ⟨(p.take nr).length, p, c1, c2, ?_, ?_⟩ <;>
          · simp only [readAtLoop]
            rw [if_pos hlt, hstep]
      | some ce =>
        obtain ⟨c1', hstep1, hg1'⟩ := readAtStep_good p hg1 hce
        obtain ⟨c2', hstep2, hg2'⟩ := readAtStep_good p hg2 hce
        obtain ⟨k, q, d1, d2, h1, h2⟩ := ih _ _ c1' c2' hg1' hg2'
        refine ⟨k, q, d1, d2, ?_, ?_⟩
        · simp only [readAtLoop]
          rw [if_pos hlt, hstep1]
          exact h1
        · simp only [readAtLoop]
          rw [if_pos hlt, hstep2]
          exact h2
    · refine ⟨(p.take nr).length, p, c1, c2, ?_, ?_⟩ <;>
        · simp only [readAtLoop]
          rw [if_neg hlt]

theorem readAtLoop_count {layout : List ChunkEntry} {ra : Nat → Nat → Option (List Nat)} :
    ∀ fuel (p : List Nat) (offset nr : Nat) (c : Cache), nr ≤ p.length →
    ∀ k q c', readAtLoop layout ra fuel p offset nr c = .ok k q c' →
    k = nr + copiedLoop layout ra fuel p offset nr c := by
  intro fuel
  induction fuel with
  | zero =>
    intro p offset nr c hnr k q c' h
    simp only [readAtLoop, ReadAtResult.ok.injEq] at h
    obtain ⟨hk, _, _⟩ := h
    simp only [copiedLoop]
    rw [← hk, List.length_take]
    omega
  | succ fuel ih =>
    intro p offset nr c hnr k q c' h
    simp only [readAtLoop] at h
    by_cases hlt : nr < p.length
    · rw [if_pos hlt] at h
      cases hstep : readAtStep layout ra p offset nr c with
      | done =>
        rw [hstep] at h
        simp only [ReadAtResult.ok.injEq] at h
        obtain ⟨hk, _, _⟩ := h
        simp only [copiedLoop, if_pos hlt, hstep]
        rw [← hk, List.length_take]
        omega
      | fail =>
        rw [hstep] at h
        exact absurd h (by simp)
      | next p' nr' c'' =>
        rw [hstep] at h
        obtain ⟨ce, src, _, _, hp', hnr'⟩ := readAtStep_next hstep
        have hlen : p'.length = p.length := by
          rw [hp']
          exact writeBuf_length src (le_of_lt hlt)
        have hbound : nr' ≤ p'.length := by
          rw [hlen, hnr']
          have : copyLen p nr src ≤ p.length - nr := Nat.min_le_left _ _
          omega
        have hk := ih p' offset nr' c'' hbound k q c' h
        simp only [copiedLoop, if_pos hlt, hstep]
        have hge : nr ≤ nr' := by rw [hnr']; omega
        omega
    · rw [if_neg hlt] at h
      simp only [ReadAtResult.ok.injEq] at h
      obtain ⟨hk, _, _⟩ := h
      simp only [copiedLoop, if_neg hlt]
      rw [← hk, List.length_take]
      omega

theorem readAtLoop_err {layout : List ChunkEntry} {ra : Nat → Nat → Option (List Nat)} :
    ∀ fuel (p : List Nat) (offset nr : Nat) (c : Cache) (n : Nat) (q : List Nat) (c' : Cache),
    readAtLoop layout ra fuel p offset nr c = .err n q c' →
    n = 0 ∧ ∃ ce off0, chunkEntryForOffset layout off0 = some ce ∧
      ra ce.chunkOffset ce.chunkSize = none ∧ hitData c' ce = none := by
  intro fuel
  induction fuel with
  | zero =>
    intro p offset nr c n q c' h
    exact absurd h (by simp [readAtLoop])
  | succ fuel ih =>
    intro p offset nr c n q c' h
    simp only [readAtLoop] at h
    by_cases hlt : nr < p.length
    · rw [if_pos hlt] at h
      cases hstep : readAtStep layout ra p offset nr c with
      | done =>
        rw [hstep] at h
        exact absurd h (by simp)
      | fail =>
        rw [hstep] at h
        simp only [ReadAtResult.err.injEq] at h
        obtain ⟨hn, _, hc⟩ := h
        obtain ⟨ce, hce, hh, hra⟩ := readAtStep_fail hstep
        exact ⟨hn.symm, ce, offset + nr, hce, hra, hc ▸ hh⟩
      | next p' nr' c'' =>
        rw [hstep] at h
        exact ih p' offset nr' c'' n q c' h
    · rw [if_neg hlt] at h
      exact absurd h (by simp)

/-- Claim C1: for every file, buffer and offset, if every cache entry
stored under a chunk ID of that file holds exactly that chunk's true bytes
(of length `chunk.size`), then `file.ReadAt(buf, offset)` returns the same
byte count and fills the buffer with the same bytes whether each chunk it
touches is a cache hit, a cache miss served from the underlying section
reader, or any mix of the two: two runs from any two caches satisfying the
hypothesis — the empty, all-miss cache included — agree on the returned
count and the resulting buffer. -/
theorem readAt_cache_transparent (layout : List ChunkEntry) (content : List Nat)
    (p : List Nat) (offset : Nat) (c1 c2 : Cache)
    (hg1 : goodCache layout content c1) (hg2 : goodCache layout content c2) :
    ∃ k q c1' c2',
      fileReadAt layout (sectionReaderOf content) p offset c1 = .ok k q c1' ∧
      fileReadAt layout (sectionReaderOf content) p offset c2 = .ok k q c2' :=
  readAtLoop_good (p.length + 1) p 0 c1 c2 hg1 hg2

/-- Witness for C1: a read at offset 3 over a two-chunk file, once from a
cache holding both chunks' true bytes and once from the empty cache,
returns the same count and buffer. -/
theorem readAt_cache_transparent_witness :
    ∃ k q c1' c2',
      fileReadAt [⟨0, 4⟩, ⟨4, 4⟩] (sectionReaderOf [1, 2, 3, 4, 5, 6, 7, 8])
          [0, 0, 0, 0] 3 [(⟨0, 4⟩, [1, 2, 3, 4]), (⟨4, 4⟩, [5, 6, 7, 8])] = .ok k q c1' ∧
      fileReadAt [⟨0, 4⟩, ⟨4, 4⟩] (sectionReaderOf [1, 2, 3, 4, 5, 6, 7, 8])
          [0, 0, 0, 0] 3 [] = .ok k q c2' :=
  readAt_cache_transparent [⟨0, 4⟩, ⟨4, 4⟩] [1, 2, 3, 4, 5, 6, 7, 8] [0, 0, 0, 0] 3
    [(⟨0, 4⟩, [1, 2, 3, 4]), (⟨4, 4⟩, [5, 6, 7, 8])] [] (by decide) (by decide)

/-- Counterexample to claim C2: the claim says each iteration of the
`file.ReadAt` loop advances the cursor by `ce.chunkSize`.  Here the chunk
entry found for position 0 has `chunkSize = 4`, yet the iteration advances
`nr` from 0 to 2, the number of bytes it copied into the 2-byte buffer. -/
theorem readAt_advance_counterexample :
    readAtStep [⟨0, 4⟩] (sectionReaderOf [1, 2, 3, 4]) [0, 0] 0 0 []
        = .next [1, 2] 2 [(⟨0, 4⟩, [1, 2, 3, 4])] ∧
      chunkEntryForOffset [⟨0, 4⟩] (0 + 0) = some ⟨0, 4⟩ ∧ (2 : Nat) ≠ 0 + 4 := by
  decide

/-- Claim C2 as amended: in every iteration of the `file.ReadAt` loop the
read cursor advances by the number of bytes copied out of the chunk,
`min (len(p) − nr) (ce.chunkSize − (offset + nr − ce.chunkOffset))` — not
by `ce.chunkSize`. -/
theorem readAt_advance_amended (layout : List ChunkEntry)
    (ra : Nat → Nat → Option (List Nat)) (p : List Nat) (offset nr : Nat) (c : Cache)
    (ce : ChunkEntry) (p' : List Nat) (nr' : Nat) (c' : Cache)
    (hce : chunkEntryForOffset layout (offset + nr) = some ce)
    (hstep : readAtStep layout ra p offset nr c = .next p' nr' c') :
    nr' = nr + min (p.length - nr) (ce.chunkSize - (offset + nr - ce.chunkOffset)) := by
  obtain ⟨ce0, src, hce0, hlen, _, hnr'⟩ := readAtStep_next hstep
  rw [hce] at hce0
  cases hce0
  rw [hnr', copyLen, hlen]

/-- Witness for the amended C2: the iteration of the counterexample input
advances the cursor by exactly `min 2 4 = 2` bytes. -/
theorem readAt_advance_amended_witness :
    (2 : Nat) = 0 + min ([0, 0].length - 0) (4 - (0 + 0 - 0)) :=
  readAt_advance_amended [⟨0, 4⟩] (sectionReaderOf [1, 2, 3, 4]) [0, 0] 0 0 []
    ⟨0, 4⟩ [1, 2] 2 [(⟨0, 4⟩, [1, 2, 3, 4])] (by decide) (by decide)

/-- Claim C3: whenever the `file.ReadAt` loop terminates without a non-EOF
error from the underlying section reader — the break on a missing chunk
entry (a short read at end of file) included — it returns `(nr, nil)`
where `nr` is exactly the number of bytes it copied into the caller's
buffer: the returned count (the code's `len(p)` after `p = p[:nr]`) equals
the sum of the per-iteration copy counts. -/
theorem readAt_count_eq_copied (layout : List ChunkEntry)
    (ra : Nat → Nat → Option (List Nat)) (p : List Nat) (offset : Nat) (c : Cache)
    (k : Nat) (q : List Nat) (c' : Cache)
    (h : fileReadAt layout ra p offset c = .ok k q c') :
    k = copiedLoop layout ra (p.length + 1) p offset 0 c := by
  have := readAtLoop_count (p.length + 1) p offset 0 c (Nat.zero_le _) k q c' h
  omega

/-- Witness for C3: a 6-byte read of a 4-byte single-chunk file ends with
the break on a missing chunk entry and returns `(4, nil)`, 4 being the
bytes copied. -/
theorem readAt_count_eq_copied_witness :
    (4 : Nat) = copiedLoop [⟨0, 4⟩] (sectionReaderOf [1, 2, 3, 4]) 7
      [0, 0, 0, 0, 0, 0] 0 0 [] :=
  readAt_count_eq_copied [⟨0, 4⟩] (sectionReaderOf [1, 2, 3, 4]) [0, 0, 0, 0, 0, 0] 0 []
    4 [1, 2, 3, 4, 0, 0] [(⟨0, 4⟩, [1, 2, 3, 4])] (by decide)

/-- Claim C10: if the underlying section reader returns a non-EOF error
while filling some chunk during `file.ReadAt`, the call returns `(0, err)`
— discarding the count of bytes already copied in earlier iterations — and
that chunk is not (usably) present in the final cache: the failing chunk's
probe still misses. -/
theorem readAt_err_discards (layout : List ChunkEntry)
    (ra : Nat → Nat → Option (List Nat)) (p : List Nat) (offset : Nat) (c : Cache)
    (n : Nat) (q : List Nat) (c' : Cache)
    (h : fileReadAt layout ra p offset c = .err n q c') :
    n = 0 ∧ ∃ ce off0, chunkEntryForOffset layout off0 = some ce ∧
      ra ce.chunkOffset ce.chunkSize = none ∧ hitData c' ce = none :=
  readAtLoop_err (p.length + 1) p offset 0 c n q c' h

/-- Witness for C10: the section reader fails on the second chunk after
two bytes were already copied for the first; `ReadAt` returns count 0 and
the second chunk is absent from the final cache. -/
theorem readAt_err_discards_witness :
    (0 : Nat) = 0 ∧ ∃ ce off0, chunkEntryForOffset [⟨0, 2⟩, ⟨2, 2⟩] off0 = some ce ∧
      (fun off _ => if off = 0 then some [7, 7] else none : Nat → Nat → Option (List Nat))
        ce.chunkOffset ce.chunkSize = none ∧
      hitData [(⟨0, 2⟩, [7, 7])] ce = none :=
  readAt_err_discards [⟨0, 2⟩, ⟨2, 2⟩]
    (fun off _ => if off = 0 then some [7, 7] else none) [0, 0, 0, 0] 0 []
    0 [7, 7, 0, 0] [(⟨0, 2⟩, [7, 7])] (by decide)

/-- Claim C4: for every blob, if Refresh's re-resolution succeeds but
yields a size different from the blob's recorded size, Refresh returns the
size-changed error and leaves the blob — its fetcher and lastCheck fields
in particular — unchanged; if the sizes are equal, Refresh installs the
new fetcher and updates lastCheck. -/
theorem refresh_size_check (b : Blob) (url : String) (size tr now : Nat) :
    (size ≠ b.size →
      (Refresh b (.ok (url, size, tr)) now).1 = some .sizeChanged ∧
      (Refresh b (.ok (url, size, tr)) now).2 = b) ∧
    (size = b.size →
      (Refresh b (.ok (url, size, tr)) now).1 = none ∧
      (Refresh b (.ok (url, size, tr)) now).2.fetcher = ⟨url, tr⟩ ∧
      (Refresh b (.ok (url, size, tr)) now).2.lastCheck = now) := by
  constructor
  · intro h
    simp [Refresh, h]
  · intro h
    simp [Refresh, h]

/-- Witness for C4: a blob of recorded size 1000 re-resolved at size 1001
gets the size-changed error and keeps its fetcher and lastCheck; at size
1000 the new fetcher and check time are installed. -/
theorem refresh_size_check_witness :
    ((Refresh ⟨⟨"old", 0⟩, 1000, 5⟩ (.ok ("new", 1001, 1)) 9).1 = some .sizeChanged ∧
      (Refresh ⟨⟨"old", 0⟩, 1000, 5⟩ (.ok ("new", 1001, 1)) 9).2 = ⟨⟨"old", 0⟩, 1000, 5⟩) ∧
    ((Refresh ⟨⟨"old", 0⟩, 1000, 5⟩ (.ok ("new", 1000, 1)) 9).1 = none ∧
      (Refresh ⟨⟨"old", 0⟩, 1000, 5⟩ (.ok ("new", 1000, 1)) 9).2.fetcher = ⟨"new", 1⟩ ∧
      (Refresh ⟨⟨"old", 0⟩, 1000, 5⟩ (.ok ("new", 1000, 1)) 9).2.lastCheck = 9) :=
  ⟨(refresh_size_check ⟨⟨"old", 0⟩, 1000, 5⟩ "new" 1001 1 9).1 (by decide),
    (refresh_size_check ⟨⟨"old", 0⟩, 1000, 5⟩ "new" 1000 1 9).2 rfl⟩

/-- Claim C7: in the 200-OK branch of `fetcher.fetch` the whole body is
read; if its length differs from the parsed `Content-Length` the branch
returns an error, and otherwise it returns a mapping with exactly one
entry, keyed by the region `{0, size − 1}`, whose value is the whole
body. -/
theorem fetch_200_whole_blob (body : List Nat) (size : Int) :
    ((body.length : Int) ≠ size → fetchOn200 body (some size) = .error .brokenBody) ∧
    ((body.length : Int) = size → fetchOn200 body (some size) = .ok [(⟨0, size - 1⟩, body)]) := by
  constructor
  · intro h
    simp [fetchOn200, h]
  · intro h
    simp [fetchOn200, h]

/-- Witness for C7: a 100-byte body with `Content-Length: 100` yields the
single entry keyed `{0, 99}`; with `Content-Length: 101` it is an
error. -/
theorem fetch_200_whole_blob_witness :
    fetchOn200 (List.replicate 100 5) (some 100)
        = .ok [(⟨0, 99⟩, List.replicate 100 5)] ∧
      fetchOn200 (List.replicate 100 5) (some 101) = .error .brokenBody :=
  ⟨(fetch_200_whole_blob (List.replicate 100 5) 100).2 (by decide),
    (fetch_200_whole_blob (List.replicate 100 5) 101).1 (by decide)⟩

/-- Claim C8: the landmark dispatch of `PrefetchWithReader`: when
`.no.prefetch.landmark` is in the TOC it returns nil without reading or
caching anything (`.skip`), whatever the other landmark says; otherwise
when `.prefetch.landmark` is present the prefetch size is replaced by that
entry's offset, failing when the offset exceeds the layer size; otherwise
the prefetch size is clamped to the layer size. -/
theorem prefetch_landmark_cases (layerSize prefetchSize : Nat) :
    (∀ lm, prefetchDecision true lm layerSize prefetchSize = .skip) ∧
    (∀ off, prefetchDecision false (some off) layerSize prefetchSize =
      if layerSize < off then .invalidLandmark else .fetch off) ∧
    prefetchDecision false none layerSize prefetchSize
      = .fetch (min prefetchSize layerSize) := by
  refine ⟨fun lm => rfl, fun off => rfl, ?_⟩
  show (if layerSize < prefetchSize then PrefetchAction.fetch layerSize
    else PrefetchAction.fetch prefetchSize) = PrefetchAction.fetch (min prefetchSize layerSize)
  split
  next h => rw [Nat.min_eq_right h.le]
  next h => rw [Nat.min_eq_left (Nat.le_of_not_lt h)]

/-- Claim C9: in `CacheTarGzWithReader`'s per-file chunk loop, a chunk
whose cache probe hits advances the file offset by `ce.ChunkSize` without
consuming any tar-stream bytes (cursor and cache unchanged), while a chunk
whose probe misses consumes exactly `ce.ChunkSize` bytes from the current
stream cursor — hence the next missing chunk of the file reads from the
position left by the previous miss — and caches them. -/
theorem cacheTar_stream_only_on_miss (layout : List ChunkEntry) (c : Cache)
    (stream : List Nat) (nr pos : Nat) (ce : ChunkEntry)
    (hce : chunkEntryForOffset layout nr = some ce) :
    (∀ d, hitData c ce = some d →
      cacheTarStep layout c stream nr pos = .next (nr + ce.chunkSize) pos c) ∧
    (hitData c ce = none → nr = ce.chunkOffset →
      ce.chunkSize ≤ stream.length - pos →
      cacheTarStep layout c stream nr pos =
        .next (nr + ce.chunkSize) (pos + ce.chunkSize)
          (cacheAdd c ce ((stream.drop pos).take ce.chunkSize))) := by
  constructor
  · intro d hd
    simp only [cacheTarStep, hce, hd]
  · intro hmiss heq hav
    simp only [cacheTarStep, hce, hmiss]
    rw [if_neg (by simp [heq])]
    simp only [readFull, if_pos hav]

/-- Witness for C9: with chunks `[0,2)`, `[2,2)` and the first chunk a
cache hit, the step at `nr = 0` advances to 2 leaving the stream cursor at
0; with the second chunk missing, the step at `nr = 2` then consumes the
stream bytes at cursor 0. -/
theorem cacheTar_stream_only_on_miss_witness :
    cacheTarStep [⟨0, 2⟩, ⟨2, 2⟩] [(⟨0, 2⟩, [9, 9])] [5, 6] 0 0
        = .next 2 0 [(⟨0, 2⟩, [9, 9])] ∧
      cacheTarStep [⟨0, 2⟩, ⟨2, 2⟩] [] [5, 6] 2 0
        = .next 4 2 [(⟨2, 2⟩, [5, 6])] :=
  ⟨(cacheTar_stream_only_on_miss [⟨0, 2⟩, ⟨2, 2⟩] [(⟨0, 2⟩, [9, 9])] [5, 6] 0 0 ⟨0, 2⟩
      (by decide)).1 [9, 9] (by decide),
    (cacheTar_stream_only_on_miss [⟨0, 2⟩, ⟨2, 2⟩] [] [5, 6] 2 0 ⟨2, 2⟩
      (by decide)).2 (by decide) (by decide) (by decide)⟩

theorem hostFails_step {o : HostOracles} {h : MirrorConfig}
    (hf : hostFails o h = true) (rest : List MirrorConfig) (errs : List ErrCtx) :
    resolveLoop o (h :: rest) errs = resolveLoop o rest (errs ++ [failEntry o h]) := by
  by_cases hv : h.host = "" ∨ h.host.toList.contains '/' = true
  · simp only [resolveLoop, failEntry, failStage, if_pos hv]
  · have hv1 : ¬h.host = "" := fun hh => hv (Or.inl hh)
    have hv2 : h.host.toList.contains '/' = false := by
      cases hc : h.host.toList.contains '/'
      · rfl
      · exact absurd (Or.inr hc) hv
    cases hp : o.parse h with
    | none => simp only [resolveLoop, failEntry, failStage, if_neg hv, hp]
    | some nref =>
      cases hr : o.resolveRef nref with
      | none => simp only [resolveLoop, failEntry, failStage, if_neg hv, hp, hr]
      | some url =>
        cases hpool : o.pool nref with
        | none => simp only [resolveLoop, failEntry, failStage, if_neg hv, hp, hr, hpool]
        | some tr =>
          cases hs : o.getSize url tr with
          | none =>
            simp only [resolveLoop, failEntry, failStage, if_neg hv, hp, hr, hpool, hs]
          | some size =>
            exfalso
            have hv2' : ¬('/' ∈ h.host.toList) := by simpa using hv2
            rw [hostFails] at hf
            simp [hv1, hp, hr, hpool, hs] at hf
            exact hv2' hf

/-- Claim C5: `resolve` walks the candidate host list — the configured
mirrors for the reference's domain followed by the domain itself.  A host
whose name is empty or contains `/` is skipped, accumulating an error
entry for that host; the first host for which reference parsing, redirect
resolution (whose success puts the transport in the pool) and size probing
all succeed determines the returned `(url, size, transport)`, discarding
the context accumulated so far; and when every host fails, the result is
an error carrying one accumulated context entry per failed host. -/
theorem resolve_host_walk (o : HostOracles) :
    (∀ mirrors domain, resolverResolve o mirrors domain =
      resolveLoop o (mirrors ++ [⟨domain, false⟩]) []) ∧
    (∀ h rest errs, (h.host = "" ∨ h.host.toList.contains '/' = true) →
      resolveLoop o (h :: rest) errs
        = resolveLoop o rest (errs ++ [⟨h.host, .invalidHost⟩])) ∧
    (∀ h rest errs nref url tr size,
      ¬(h.host = "" ∨ h.host.toList.contains '/' = true) →
      o.parse h = some nref → o.resolveRef nref = some url →
      o.pool nref = some tr → o.getSize url tr = some size →
      resolveLoop o (h :: rest) errs = .ok (url, size, tr)) ∧
    (∀ hosts errs, (∀ h ∈ hosts, hostFails o h = true) →
      resolveLoop o hosts errs = .error (errs ++ hosts.map (failEntry o))) := by
  refine ⟨fun mirrors domain => rfl, ?_, ?_, ?_⟩
  · intro h rest errs hv
    simp only [resolveLoop, if_pos hv]
  · intro h rest errs nref url tr size hv hp hr hpool hs
    simp only [resolveLoop, if_neg hv, hp, hr, hpool, hs]
  · intro hosts
    induction hosts with
    | nil =>
      intro errs _
      simp [resolveLoop]
    | cons h rest ih =>
      intro errs hall
      rw [hostFails_step (hall h (List.mem_cons_self h rest)) rest errs,
        ih (errs ++ [failEntry o h]) (fun h' hh => hall h' (List.mem_cons_of_mem h hh))]
      simp

/-- Witness for C5: with the `oracleW` oracles, the host `bad/x` is
skipped with an accumulated entry, the host `good` succeeds and discards
the accumulated context, and a list of failing hosts yields the error
carrying each host's context entry. -/
theorem resolve_host_walk_witness :
    resolveLoop oracleW [⟨"bad/x", false⟩] []
        = resolveLoop oracleW [] ([] ++ [⟨"bad/x", .invalidHost⟩]) ∧
      resolveLoop oracleW [⟨"good", false⟩] [⟨"bad/x", .invalidHost⟩] = .ok ("u", 100, 1) ∧
      resolveLoop oracleW [⟨"down", false⟩] []
        = .error ([] ++ [⟨"down", false⟩].map (failEntry oracleW)) :=
  ⟨(resolve_host_walk oracleW).2.1 ⟨"bad/x", false⟩ [] [] (by decide),
    (resolve_host_walk oracleW).2.2.1 ⟨"good", false⟩ [] [⟨"bad/x", .invalidHost⟩]
      "n" "u" 1 100 (by decide) (by decide) (by decide) (by decide) (by decide),
    (resolve_host_walk oracleW).2.2.2 [⟨"down", false⟩] [] (by decide)⟩

theorem foldl_append_comma (rs : List region) :
    ∀ xs : List Char,
      rs.foldl (fun acc r => acc ++ fmtRegion r) (xs ++ [',']) =
        (xs ++ rs.flatMap (fun r => ',' :: (intStr r.b ++ '-' :: intStr r.e))) ++ [','] := by
  induction rs with
  | nil =>
    intro xs
    simp
  | cons r rs ih =>
    intro xs
    simp only [List.foldl_cons, List.flatMap_cons]
    have h1 : (xs ++ [',']) ++ fmtRegion r
        = (xs ++ ',' :: (intStr r.b ++ '-' :: intStr r.e)) ++ [','] := by
      simp [fmtRegion]
    rw [h1, ih]
    simp

theorem rangeHeader_eq_spec (reqs : List region) :
    rangeHeader reqs = rangeHeaderSpec reqs := by
  have h0 : "bytes=0-0,".toList = "bytes=0-0".toList ++ [','] := rfl
  rw [rangeHeader, rangesStr, h0, foldl_append_comma reqs, List.dropLast_concat]
  rfl

/-- Claim C6: for every list of requested regions, the single request's
`Range` header built by `fetcher.fetch` is `bytes=0-0` followed by each
requested region rendered `b-e` in request order, joined by commas with no
trailing comma; for `[{10,19},{40,49}]` it is exactly
`bytes=0-0,10-19,40-49`. -/
theorem fetch_range_header (reqs : List region) :
    rangeHeader reqs = rangeHeaderSpec reqs ∧
    rangeHeader [⟨10, 19⟩, ⟨40, 49⟩] = "bytes=0-0,10-19,40-49".toList :=
  ⟨rangeHeader_eq_spec reqs, by decide⟩

end StargzSnapshotter
